import Mathlib

/-!
# Countdown numbers game solver: a shallow embedding

This file embeds, in Lean, the core of the Countdown numbers-game solver:
the expression-tree data model of `src/nodes.py` (operators, number leaves,
operator nodes, evaluation, canonical rendering) and the search engine of
`src/solvers/iterative_deepening_solver.py` (the successor-state generator
`NextStateGeneratorVisitor` and the queue-driven loop
`IterativeDeepeningSolver.solve`), and proves properties of the embedded
definitions.

Python integers are modelled as `Int` (Python `%` and `//` are floor
operations, i.e. `Int.fmod` and `Int.fdiv`).  Python's `ValueError`s raised
during evaluation are modelled as an `Except` result with one constructor per
distinct failure condition of `OperatorNode.eval`.

A modelling note on the visited set of `IterativeDeepeningSolver.solve`
(lines 80, 109-112): the Python classes `NumberNode` and `OperatorNode`
define `__hash__` but not `__eq__`, so `set` membership for these objects
falls back to object identity (`object.__eq__`).  Object identity of the
root nodes of queue items is therefore part of the observable semantics and
is modelled by tagging every queue item with the identity (`id : Nat`) of
its freshly constructed root; `set.add` and `in` on `visited` become list
operations on those identities.
-/

namespace Countdown

/-- The four operators of `Operator` in `src/nodes.py` (`PLUS`, `MINUS`,
`TIMES`, `DIVIDE`, in declaration order). -/
inductive Operator where
  | plus
  | minus
  | times
  | divide
deriving DecidableEq

/-- `Operator.commutative` (`src/nodes.py` lines 23-30): true for `PLUS` and
`TIMES` only. -/
def Operator.commutative : Operator → Bool
  | .plus => true
  | .times => true
  | .minus => false
  | .divide => false

/-- `Operator.precedence` (`src/nodes.py` lines 32-41): 2 for `TIMES` and
`DIVIDE`, otherwise 1. -/
def Operator.precedence : Operator → Nat
  | .times => 2
  | .divide => 2
  | .plus => 1
  | .minus => 1

/-- `Operator.__str__` (`src/nodes.py` lines 43-48): the operator's symbol,
i.e. the enum member's value. -/
def Operator.symbol : Operator → String
  | .plus => "+"
  | .minus => "-"
  | .times => "*"
  | .divide => "/"

/-- The expression tree `Node` of `src/nodes.py`: `num` models `NumberNode`
(a leaf holding an integer), `op` models `OperatorNode` (an operator applied
to two subtrees).  `clone()` produces a structurally identical tree, so it is
the identity on this value-level model. -/
inductive Node where
  | num (value : Int)
  | op (operator : Operator) (left right : Node)
deriving DecidableEq

/-- The three distinct `ValueError` conditions raised by `OperatorNode.eval`
(`src/nodes.py` lines 142-166), one constructor per raise site. -/
inductive EvalError where
  | nonPositiveResult
  | divisionByZero
  | divisionRemainder
deriving DecidableEq

/-- `NumberNode.eval` and `OperatorNode.eval` (`src/nodes.py` lines 100-105
and 142-166).  Both subtrees are evaluated, left first, before the operator
is applied, and the first `ValueError` raised propagates.  Python `%` is
floor mod (`Int.fmod`) and `//` is floor division (`Int.fdiv`). -/
def Node.eval : Node → Except EvalError Int
  | .num v => .ok v
  | .op o l r =>
    match l.eval with
    | .error e => .error e
    | .ok a =>
      match r.eval with
      | .error e => .error e
      | .ok b =>
        match o with
        | .plus => .ok (a + b)
        | .minus =>
          if a ≤ b then .error .nonPositiveResult else .ok (a - b)
        | .times => .ok (a * b)
        | .divide =>
          if b = 0 then .error .divisionByZero
          else if a.fmod b = 0 then .ok (a.fdiv b)
          else .error .divisionRemainder

instance : DecidableEq (Except EvalError Int) := fun x y =>
  match x, y with
  | .ok a, .ok b =>
    if h : a = b then isTrue (congrArg Except.ok h)
    else isFalse fun hc => h (Except.ok.inj hc)
  | .error e, .error f =>
    if h : e = f then isTrue (congrArg Except.error h)
    else isFalse fun hc => h (Except.error.inj hc)
  | .ok _, .error _ => isFalse Except.noConfusion
  | .error _, .ok _ => isFalse Except.noConfusion

/-- The bracketing test of `OperatorNode._subtree_string` (`src/nodes.py`
lines 175-184): a child is parenthesised iff it is itself an `OperatorNode`
whose operator's precedence is strictly below the parent operator's. -/
def needsParens (parent : Operator) : Node → Bool
  | .num _ => false
  | .op o _ _ => decide (o.precedence < parent.precedence)

/-- Canonical infix rendering: `NumberNode.__str__` and `OperatorNode.__str__`
(`src/nodes.py` lines 117-122 and 175-194). -/
def Node.render : Node → String
  | .num v => toString v
  | .op o l r =>
    (if needsParens o l then "(" ++ l.render ++ ")" else l.render)
      ++ " " ++ o.symbol ++ " "
      ++ (if needsParens o r then "(" ++ r.render ++ ")" else r.render)

/-- **C4.** Evaluation follows the operator table exactly: a leaf always
succeeds with its stored value; once both subtrees evaluate successfully (to
`a` and `b`), `Add` returns `a + b`, `Multiply` returns `a * b`, `Subtract`
returns `a - b` but fails with `NonPositiveResult` exactly when `a ≤ b`, and
`Divide` fails with `DivisionByZero` exactly when `b = 0`, fails with
`DivisionRemainder` exactly when `b ≠ 0` and `a mod b ≠ 0`, and otherwise
returns the exact quotient of `a` by `b`. -/
theorem c4_eval_table (l r : Node) (a b : Int)
    (hl : l.eval = .ok a) (hr : r.eval = .ok b) :
    (∀ v : Int, (Node.num v).eval = .ok v)
    ∧ (Node.op .plus l r).eval = .ok (a + b)
    ∧ (Node.op .times l r).eval = .ok (a * b)
    ∧ (Node.op .minus l r).eval =
        (if a ≤ b then .error .nonPositiveResult else .ok (a - b))
    ∧ (Node.op .divide l r).eval =
        (if b = 0 then .error .divisionByZero
         else if a.fmod b ≠ 0 then .error .divisionRemainder
         else .ok (a.fdiv b))
    ∧ (b ≠ 0 → a.fmod b = 0 → b * a.fdiv b = a) := by
  refine ⟨fun v => rfl, ?_, ?_, ?_, ?_, ?_⟩
  · simp [Node.eval, hl, hr]
  · simp [Node.eval, hl, hr]
  · simp [Node.eval, hl, hr]
  · by_cases hb : b = 0
    · simp [Node.eval, hl, hr, hb]
    · by_cases hm : a.fmod b = 0 <;> simp [Node.eval, hl, hr, hb, hm]
  · intro _ hm
    have h := Int.fmod_add_fdiv a b
    rw [hm, zero_add] at h
    exact h

/-- Witness for `c4_eval_table` at the spec's own examples `7 / 2`,
`6 / 0`, `6 / 3`, `3 - 5` and `5 - 3`. -/
theorem c4_witness :
    (Node.num 7).eval = .ok 7
    ∧ (Node.num 2).eval = .ok 2
    ∧ (Node.op .divide (.num 7) (.num 2)).eval =
        (if (2 : Int) = 0 then .error .divisionByZero
         else if (7 : Int).fmod 2 ≠ 0 then .error .divisionRemainder
         else .ok ((7 : Int).fdiv 2)) := by
  refine ⟨rfl, rfl, ?_⟩
  exact (c4_eval_table (.num 7) (.num 2) 7 2 rfl rfl).2.2.2.2.1

/-- **C8.** Rendering is canonical minimal-parenthesization infix: a leaf
renders as its decimal value; a binary node renders as
`render(left) OP render(right)` with a child wrapped in parentheses iff that
child is itself a binary node of strictly lower operator precedence; the
tree `Multiply(Subtract(Leaf 5, Leaf 3), Leaf 7)` renders as `"(5 - 3) * 7"`
and evaluates to `14`. -/
theorem c8_render_canonical :
    (∀ v : Int, (Node.num v).render = toString v)
    ∧ (∀ (o : Operator) (l r : Node),
        (Node.op o l r).render =
          (if needsParens o l then "(" ++ l.render ++ ")" else l.render)
            ++ " " ++ o.symbol ++ " "
            ++ (if needsParens o r then "(" ++ r.render ++ ")" else r.render))
    ∧ (∀ (parent : Operator) (c : Node),
        needsParens parent c = true
          ↔ ∃ o l r, c = Node.op o l r ∧ o.precedence < parent.precedence)
    ∧ (Node.op .times (.op .minus (.num 5) (.num 3)) (.num 7)).render
        = "(5 - 3) * 7"
    ∧ (Node.op .times (.op .minus (.num 5) (.num 3)) (.num 7)).eval = .ok 14 := by
  refine ⟨fun v => rfl, fun o l r => rfl, ?_, by decide, by decide⟩
  intro parent c
  cases c with
  | num v => simp [needsParens]
  | op o l r =>
    simp only [needsParens, decide_eq_true_eq]
    constructor
    · intro h
      exact ⟨o, l, r, rfl, h⟩
    · rintro ⟨o', l', r', heq, h⟩
      cases heq
      exact h

/-! ## The state expander (`NextStateGeneratorVisitor`)

`src/solvers/iterative_deepening_solver.py` lines 10-61.  The visitor's two
mutable counters `check_leaf` and `current_leaf` are threaded explicitly:
`visitAux` takes `check_leaf` and the incoming `current_leaf` and returns the
produced queue items together with the outgoing `current_leaf`.  Python's
`itertools.cycle` over a list is modelled by indexing modulo the list's
length (`cycGet`), and `sorted` by an insertion sort over `Int`. -/

/-- Insert `x` into an already-ascending list, keeping it ascending. -/
def insSorted (x : Int) : List Int → List Int
  | [] => [x]
  | y :: ys => if x ≤ y then x :: y :: ys else y :: insSorted x ys

/-- Python `sorted(...)`: the ascending reordering of a list of ints. -/
def sortAsc (l : List Int) : List Int := l.foldr insSorted []

/-- Python `list(reversed(sorted(...)))`: the descending reordering. -/
def sortDesc (l : List Int) : List Int := (sortAsc l).reverse

/-- The element that `next()` on `itertools.cycle(l)` yields at consumption
position `p` (0-based): the list repeats forever. -/
def cycGet (l : List Int) (p : Nat) : Int := l.getD (p % l.length) 0

/-- `QueueItem` (`src/solvers/iterative_deepening_solver.py` line 10): a
candidate tree together with the numbers not yet used in it. -/
structure QueueItem where
  node : Node
  remaining : List Int
deriving DecidableEq

/-- The list of operators iterated by `visit_number`: `list(Operator)` in
declaration order, reversed in depth-first mode (lines 33-36). -/
def operatorOrder (depthFirst : Bool) : List Operator :=
  if depthFirst then [.divide, .times, .minus, .plus]
  else [.plus, .minus, .times, .divide]

/-- The successors produced at the selected leaf by `visit_number`
(`src/solvers/iterative_deepening_solver.py` lines 28-44), for leaf value `v`
and pool `r` (nonempty).  One iteration of the outer loop consumes
`r.length + 1` positions of `cycle(r)`: one for `next_number`, `r.length - 1`
for the islice that becomes `next_remaining` (descending-sorted; reversed
again to ascending in depth-first mode), and one extra `next(...)`; so
iteration `i` starts at cycle position `i * (r.length + 1)`.  For every
operator the successor `operator(NumberNode(next_number), leaf)` is yielded,
and for non-commutative operators also `operator(leaf, NumberNode(next_number))`.
`expandRest` is the `next_remaining` of outer-loop iteration `i`, `expandNumber`
the whole yielded sequence. -/
def expandRest (r : List Int) (i : Nat) (depthFirst : Bool) : List Int :=
  let sliced :=
    (List.range (r.length - 1)).map fun j => cycGet r (i * (r.length + 1) + 1 + j)
  if depthFirst then (sortDesc sliced).reverse else sortDesc sliced

/-- See `expandRest`: the queue items yielded by one full run of the selected
leaf's `visit_number` loop. -/
def expandNumber (v : Int) (r : List Int) (depthFirst : Bool) : List QueueItem :=
  (List.range r.length).flatMap fun i =>
    (operatorOrder depthFirst).flatMap fun o =>
      ⟨.op o (.num (cycGet r (i * (r.length + 1)))) (.num v),
       expandRest r i depthFirst⟩ ::
        (if o.commutative then []
         else [⟨.op o (.num v) (.num (cycGet r (i * (r.length + 1)))),
                expandRest r i depthFirst⟩])

/-- `NextStateGeneratorVisitor.visit` / `visit_number` / `visit_operator`
(`src/solvers/iterative_deepening_solver.py` lines 27-61) with the two
counters made explicit.  A leaf at position `check_leaf` yields the
`expandNumber` successors; any other leaf yields itself with the full pool;
an operator node yields the product of its children's yields, each pair
recombined under the node's operator with the shorter of the two pools
(`visit_operator`, lines 49-55).  The second component is the outgoing
`current_leaf` counter. -/
def visitAux (checkLeaf : Nat) (rem : List Int) (depthFirst : Bool) :
    Node → Nat → List QueueItem × Nat
  | .num v, curLeaf =>
    (if checkLeaf = curLeaf then expandNumber v rem depthFirst
     else [⟨.num v, rem⟩], curLeaf + 1)
  | .op o l r, curLeaf =>
    let lp := visitAux checkLeaf rem depthFirst l curLeaf
    let rp := visitAux checkLeaf rem depthFirst r lp.2
    (lp.1.flatMap fun li => rp.1.map fun ri =>
      ⟨.op o li.node ri.node,
       if li.remaining.length < ri.remaining.length then li.remaining
       else ri.remaining⟩, rp.2)

/-- `NextStateGeneratorVisitor.generate_next_states`
(`src/solvers/iterative_deepening_solver.py` lines 20-25): nothing if the
pool is empty; nothing if `range(6 - len(remaining))` is empty (pool of six
or more); otherwise the loop body returns on its first iteration, with
`check_leaf = 0` and `current_leaf = 0`. -/
def generateNextStates (s : QueueItem) (depthFirst : Bool) : List QueueItem :=
  if s.remaining.isEmpty then []
  else if 6 - s.remaining.length = 0 then []
  else (visitAux 0 s.remaining depthFirst s.node 0).1

/-- The seed states built by `IterativeDeepeningSolver.solve`
(`src/solvers/iterative_deepening_solver.py` lines 84-96): iterate
`len(numbers)` times over `cycle(reversed(sorted(numbers)))`; each iteration
consumes 7 positions (1 for the root `NumberNode`, 5 for the islice that
becomes the ascending-sorted `rest`, 1 skipped). -/
def seedStates (numbers : List Int) : List QueueItem :=
  let desc := sortDesc numbers
  (List.range numbers.length).map fun i =>
    ⟨.num (cycGet desc (7 * i)),
     sortAsc ((List.range 5).map fun j => cycGet desc (7 * i + 1 + j))⟩

/-- Leaf values of a tree in left-to-right depth-first order.  The head of
this list is the value of leaf position 0, the leaf that
`NextStateGeneratorVisitor` numbers first. -/
def leafVals : Node → List Int
  | .num v => [v]
  | .op _ l r => leafVals l ++ leafVals r

/-- Number of leaves of a tree. -/
def leafCount : Node → Nat
  | .num _ => 1
  | .op _ l r => leafCount l + leafCount r

/-- The value of the leftmost leaf (leaf position 0). -/
def leftmostVal : Node → Int
  | .num v => v
  | .op _ l _ => leftmostVal l

/-- The tree with its leftmost leaf (leaf position 0) replaced by `sub` and
every other position unchanged. -/
def replaceLeftmost : Node → Node → Node
  | .num _, sub => sub
  | .op o l r, sub => .op o (replaceLeftmost l sub) r

/-! ## Permutation and cycle lemmas -/

theorem insSorted_perm (x : Int) (l : List Int) : (insSorted x l).Perm (x :: l) := by
  induction l with
  | nil => exact List.Perm.refl _
  | cons y ys ih =>
    by_cases h : x ≤ y
    · simp [insSorted, h]
    · simp only [insSorted, h, if_false]
      exact (ih.cons y).trans (List.Perm.swap x y ys)

theorem sortAsc_perm (l : List Int) : (sortAsc l).Perm l := by
  induction l with
  | nil => exact List.Perm.refl _
  | cons x xs ih =>
    exact (insSorted_perm x (sortAsc xs)).trans (ih.cons x)

theorem sortDesc_perm (l : List Int) : (sortDesc l).Perm l :=
  (List.reverse_perm (sortAsc l)).trans (sortAsc_perm l)

theorem sortAsc_length (l : List Int) : (sortAsc l).length = l.length :=
  (sortAsc_perm l).length_eq

theorem sortDesc_length (l : List Int) : (sortDesc l).length = l.length :=
  (sortDesc_perm l).length_eq

/-- Iteration `i` of a cycle loop with stride `r.length + 1` reads `r[i]` as
its first element. -/
theorem cycGet_start (r : List Int) (i : Nat) (hi : i < r.length) :
    cycGet r (i * (r.length + 1)) = r.getD i 0 := by
  have h : i * (r.length + 1) = i + i * r.length := by ring
  rw [cycGet, h, Nat.add_mul_mod_self_right, Nat.mod_eq_of_lt hi]

/-- The `r.length - 1` cycle positions after iteration `i`'s first element
read, in order, the elements after index `i` and then those before it. -/
theorem cycSlice_eq (r : List Int) (i : Nat) (hi : i < r.length) :
    ((List.range (r.length - 1)).map fun j => cycGet r (i * (r.length + 1) + 1 + j))
      = r.drop (i + 1) ++ r.take i := by
  have hk : 0 < r.length := Nat.lt_of_le_of_lt (Nat.zero_le i) hi
  apply List.ext_getElem
  · simp only [List.length_map, List.length_range, List.length_append,
      List.length_drop, List.length_take]
    omega
  · intro j hj hj'
    simp only [List.length_map, List.length_range] at hj
    simp only [List.getElem_map, List.getElem_range]
    have hmod : (i * (r.length + 1) + 1 + j) % r.length = (i + 1 + j) % r.length := by
      have h : i * (r.length + 1) + 1 + j = (i + 1 + j) + i * r.length := by ring
      rw [h, Nat.add_mul_mod_self_right]
    by_cases hcase : i + 1 + j < r.length
    · have hidx : (i * (r.length + 1) + 1 + j) % r.length = i + 1 + j := by
        rw [hmod, Nat.mod_eq_of_lt hcase]
      rw [cycGet, hidx, List.getD_eq_getElem r 0 hcase]
      have hjd : j < (r.drop (i + 1)).length := by
        simp only [List.length_drop]; omega
      rw [List.getElem_append_left hjd, List.getElem_drop]
    · have hlt : i + 1 + j - r.length < r.length := by omega
      have hidx : (i * (r.length + 1) + 1 + j) % r.length = i + 1 + j - r.length := by
        rw [hmod, Nat.mod_eq_sub_mod (by omega), Nat.mod_eq_of_lt hlt]
      rw [cycGet, hidx, List.getD_eq_getElem r 0 hlt]
      have hjd : (r.drop (i + 1)).length ≤ j := by
        simp only [List.length_drop]; omega
      rw [List.getElem_append_right hjd]
      have hjt : j - (r.drop (i + 1)).length < (r.take i).length := by
        simp only [List.length_drop, List.length_take]; omega
      rw [List.getElem_take]
      congr 1
      simp only [List.length_drop]
      omega

theorem expandRest_perm (r : List Int) (i : Nat) (df : Bool) (hi : i < r.length) :
    (expandRest r i df).Perm (r.eraseIdx i) := by
  have hslice : ((List.range (r.length - 1)).map
      fun j => cycGet r (i * (r.length + 1) + 1 + j)).Perm (r.eraseIdx i) := by
    rw [cycSlice_eq r i hi, List.eraseIdx_eq_take_drop_succ]
    exact List.perm_append_comm
  by_cases hdf : df = true
  · rw [expandRest, hdf, if_pos rfl]
    exact ((List.reverse_perm _).trans (sortDesc_perm _)).trans hslice
  · simp only [Bool.not_eq_true] at hdf
    rw [expandRest, hdf]
    simp only [Bool.false_eq_true, if_false]
    exact (sortDesc_perm _).trans hslice

theorem expandRest_length (r : List Int) (i : Nat) (df : Bool) (hi : i < r.length) :
    (expandRest r i df).length = r.length - 1 := by
  rw [(expandRest_perm r i df hi).length_eq, List.length_eraseIdx]
  simp [hi]

theorem mem_operatorOrder (o : Operator) (df : Bool) : o ∈ operatorOrder df := by
  cases df <;> cases o <;> simp [operatorOrder]

/-- Forward direction of the `visit_number` expansion: every pool index `i`
and operator produce the successor with the drawn number on the left (and,
for non-commutative operators, also the mirrored successor). -/
theorem mem_expandNumber (v : Int) (r : List Int) (df : Bool) (i : Nat)
    (hi : i < r.length) (o : Operator) :
    (⟨.op o (.num (r.getD i 0)) (.num v), expandRest r i df⟩ : QueueItem)
        ∈ expandNumber v r df
    ∧ (o.commutative = false →
        (⟨.op o (.num v) (.num (r.getD i 0)), expandRest r i df⟩ : QueueItem)
          ∈ expandNumber v r df) := by
  rw [← cycGet_start r i hi]
  constructor
  · rw [expandNumber, List.mem_flatMap]
    refine ⟨i, List.mem_range.mpr hi, ?_⟩
    rw [List.mem_flatMap]
    exact ⟨o, mem_operatorOrder o df, List.mem_cons_self _ _⟩
  · intro hnc
    rw [expandNumber, List.mem_flatMap]
    refine ⟨i, List.mem_range.mpr hi, ?_⟩
    rw [List.mem_flatMap]
    refine ⟨o, mem_operatorOrder o df, ?_⟩
    rw [hnc]
    simp

/-- Backward direction: every item yielded by the `visit_number` expansion
has one of the two shapes, for some pool index and operator, with the
corresponding `next_remaining`. -/
theorem expandNumber_shape (v : Int) (r : List Int) (df : Bool) (it : QueueItem)
    (hit : it ∈ expandNumber v r df) :
    ∃ i, i < r.length ∧ ∃ o : Operator,
      it.remaining = expandRest r i df
      ∧ (it.node = .op o (.num (r.getD i 0)) (.num v)
         ∨ (o.commutative = false ∧ it.node = .op o (.num v) (.num (r.getD i 0)))) := by
  rw [expandNumber, List.mem_flatMap] at hit
  obtain ⟨i, hi, hin⟩ := hit
  rw [List.mem_range] at hi
  rw [List.mem_flatMap] at hin
  obtain ⟨o, _, hmem⟩ := hin
  refine ⟨i, hi, o, ?_⟩
  rw [← cycGet_start r i hi] at *
  rcases List.mem_cons.mp hmem with h | h
  · rw [h]; exact ⟨rfl, Or.inl rfl⟩
  · by_cases hc : o.commutative = true
    · rw [hc] at h; simp at h
    · simp only [Bool.not_eq_true] at hc
      rw [hc] at h
      simp only [Bool.false_eq_true, if_false, List.mem_singleton] at h
      rw [h]
      exact ⟨rfl, Or.inr ⟨hc, rfl⟩⟩

theorem expandNumber_remaining_length (v : Int) (r : List Int) (df : Bool)
    (it : QueueItem) (hit : it ∈ expandNumber v r df) :
    it.remaining.length = r.length - 1 := by
  obtain ⟨i, hi, o, hrem, _⟩ := expandNumber_shape v r df it hit
  rw [hrem, expandRest_length r i df hi]

theorem length_flatMap_const {α β : Type} (l : List α) (f : α → List β) (n : Nat)
    (h : ∀ a ∈ l, (f a).length = n) : (l.flatMap f).length = l.length * n := by
  induction l with
  | nil => simp
  | cons x xs ih =>
    simp only [List.flatMap_cons, List.length_append, List.length_cons]
    rw [h x (List.mem_cons_self x xs), ih fun a ha => h a (List.mem_cons_of_mem x ha)]
    ring

theorem expandNumber_count (v : Int) (r : List Int) (df : Bool) :
    (expandNumber v r df).length = 6 * r.length := by
  rw [expandNumber]
  have hconst : ∀ i : Nat,
      ((operatorOrder df).flatMap fun o =>
        (⟨.op o (.num (cycGet r (i * (r.length + 1)))) (.num v),
          expandRest r i df⟩ : QueueItem) ::
          (if o.commutative then []
           else [⟨.op o (.num v) (.num (cycGet r (i * (r.length + 1)))),
                  expandRest r i df⟩])).length = 6 := by
    intro i
    cases df <;> simp [operatorOrder, Operator.commutative]
  rw [length_flatMap_const _ _ 6 fun i _ => hconst i, List.length_range,
    Nat.mul_comm]

/-! ## Characterising the visitor -/

theorem leafCount_pos (t : Node) : 0 < leafCount t := by
  induction t with
  | num v => simp [leafCount]
  | op o l r ihl ihr => simp only [leafCount]; omega

theorem flatMap_singleton_eq_map {α β : Type} (l : List α) (f : α → List β)
    (g : α → β) (h : ∀ x ∈ l, f x = [g x]) : l.flatMap f = l.map g := by
  induction l with
  | nil => simp
  | cons x xs ih =>
    simp only [List.flatMap_cons, List.map_cons, h x (List.mem_cons_self x xs)]
    rw [ih fun a ha => h a (List.mem_cons_of_mem x ha)]
    rfl

/-- A subtree none of whose leaves is the selected one is yielded unchanged,
once, with the full pool; the counter advances by its leaf count. -/
theorem visitAux_not_selected (ck : Nat) (rem : List Int) (df : Bool) (t : Node) :
    ∀ cl : Nat, ck < cl →
      visitAux ck rem df t cl = ([⟨t, rem⟩], cl + leafCount t) := by
  induction t with
  | num v =>
    intro cl hcl
    rw [visitAux, if_neg (Nat.ne_of_lt hcl), leafCount]
  | op o l r ihl ihr =>
    intro cl hcl
    rw [visitAux]
    simp only [ihl cl hcl,
      ihr (cl + leafCount l) (Nat.lt_of_lt_of_le hcl (Nat.le_add_right cl _))]
    simp only [List.flatMap_cons, List.map_cons, List.map_nil, List.flatMap_nil,
      List.append_nil, ite_self, leafCount, Prod.mk.injEq]
    exact ⟨trivial, by omega⟩

/-- With `check_leaf = 0` and `current_leaf = 0`, visiting any tree yields
exactly the `visit_number` expansion of its leftmost leaf, each item mapped
back into the tree in that leaf's place. -/
theorem visitAux_selected (rem : List Int) (df : Bool) (t : Node)
    (hrem : rem ≠ []) :
    visitAux 0 rem df t 0 =
      ((expandNumber (leftmostVal t) rem df).map
        fun it => ⟨replaceLeftmost t it.node, it.remaining⟩, leafCount t) := by
  have hpos : 0 < rem.length := List.length_pos.mpr hrem
  induction t with
  | num v =>
    rw [visitAux, if_pos rfl, leafCount, leftmostVal]
    have hid : ((fun it => (⟨replaceLeftmost (.num v) it.node, it.remaining⟩
        : QueueItem)) : QueueItem → QueueItem) = id := rfl
    rw [hid, List.map_id]
  | op o l r ihl ihr =>
    rw [visitAux]
    simp only [ihl]
    have hcount : (((expandNumber (leftmostVal l) rem df).map
        fun it => (⟨replaceLeftmost l it.node, it.remaining⟩ : QueueItem),
        leafCount l) : List QueueItem × Nat).2 = leafCount l := rfl
    rw [visitAux_not_selected 0 rem df r (leafCount l) (leafCount_pos l)]
    simp only [List.map_cons, List.map_nil]
    rw [flatMap_singleton_eq_map _ _
      (fun li => ⟨.op o li.node r, li.remaining⟩) ?hsing]
    case hsing =>
      intro li hli
      rw [List.mem_map] at hli
      obtain ⟨it, hit, heq⟩ := hli
      have hlen : li.remaining.length = rem.length - 1 := by
        rw [← heq]
        exact expandNumber_remaining_length _ _ _ it hit
      have : li.remaining.length < rem.length := by omega
      rw [if_pos this]
    rw [List.map_map]
    refine congrArg₂ Prod.mk ?_ ?_
    · apply List.map_congr_left
      intro it hit
      rfl
    · simp only [leafCount]

/-- `generate_next_states` on a state whose pool is nonempty and has at most
five elements (every reachable state: the pool holds `6 - leafcount`
numbers): the result is the leftmost-leaf expansion and nothing else. -/
theorem generateNextStates_eq (s : QueueItem) (df : Bool)
    (hne : s.remaining ≠ []) (hle : s.remaining.length ≤ 5) :
    generateNextStates s df =
      (expandNumber (leftmostVal s.node) s.remaining df).map
        fun it => ⟨replaceLeftmost s.node it.node, it.remaining⟩ := by
  rw [generateNextStates, if_neg (by simp [hne]), if_neg (by omega),
    visitAux_selected s.remaining df s.node hne]

theorem generateNextStates_of_empty (s : QueueItem) (df : Bool)
    (h : s.remaining = []) : generateNextStates s df = [] := by
  rw [generateNextStates, if_pos (by simp [h])]

theorem generateNextStates_of_big (s : QueueItem) (df : Bool)
    (h : 6 ≤ s.remaining.length) : generateNextStates s df = [] := by
  have hne : ¬s.remaining.isEmpty = true := by
    cases hrem : s.remaining with
    | nil => rw [hrem] at h; simp at h
    | cons x xs => simp
  rw [generateNextStates, if_neg hne, if_pos (by omega)]

/-- Every generated successor's pool is one element shorter than its
parent's (and generation only happens for pools of size 1 to 5). -/
theorem generateNextStates_remaining_length (s : QueueItem) (df : Bool) :
    ∀ it ∈ generateNextStates s df, it.remaining.length + 1 = s.remaining.length := by
  intro it hit
  by_cases hne : s.remaining = []
  · rw [generateNextStates_of_empty s df hne] at hit
    simp at hit
  · by_cases hle : s.remaining.length ≤ 5
    · rw [generateNextStates_eq s df hne hle] at hit
      rw [List.mem_map] at hit
      obtain ⟨x, hx, hxe⟩ := hit
      have hx1 := expandNumber_remaining_length _ _ _ x hx
      have hpos : 0 < s.remaining.length := List.length_pos.mpr hne
      rw [← hxe]
      simp only []
      omega
    · rw [generateNextStates_of_big s df (by omega)] at hit
      simp at hit

theorem generateNextStates_count (s : QueueItem) (df : Bool)
    (hne : s.remaining ≠ []) (hle : s.remaining.length ≤ 5) :
    (generateNextStates s df).length = 6 * s.remaining.length := by
  rw [generateNextStates_eq s df hne hle, List.length_map, expandNumber_count]

/-- **C2.** For every search state with a nonempty pool (of at most the five
elements a reachable state can hold), one call to `generate_next_states`
expands only leaf position 0, the leftmost leaf in left-to-right depth-first
order: every successor is the parent tree with exactly that leaf replaced,
and no successor replaces any other leaf position, whatever the tree's
shape. -/
theorem c2_only_leftmost_leaf_expanded (s : QueueItem) (df : Bool)
    (hne : s.remaining ≠ []) (hle : s.remaining.length ≤ 5) :
    generateNextStates s df =
      (expandNumber (leftmostVal s.node) s.remaining df).map
        fun it => ⟨replaceLeftmost s.node it.node, it.remaining⟩ :=
  generateNextStates_eq s df hne hle

/-- Witness for `c2_only_leftmost_leaf_expanded`: a three-leaf tree
`(4 + 5) * 9` with pool `[1, 2]`; only the leaf `4` is expanded. -/
theorem c2_witness :
    (([1, 2] : List Int) ≠ [])
    ∧ (([1, 2] : List Int).length ≤ 5)
    ∧ generateNextStates
        ⟨.op .times (.op .plus (.num 4) (.num 5)) (.num 9), [1, 2]⟩ false =
      (expandNumber 4 [1, 2] false).map
        fun it =>
          ⟨replaceLeftmost (.op .times (.op .plus (.num 4) (.num 5)) (.num 9))
            it.node, it.remaining⟩ :=
  ⟨by decide, by decide,
    c2_only_leftmost_leaf_expanded
      ⟨.op .times (.op .plus (.num 4) (.num 5)) (.num 9), [1, 2]⟩ false
      (by decide) (by decide)⟩

/-- **C3, counterexample.** The claim states that for leaf value `v` and pool
element `n` the expander emits `BinaryOp(operator, NumberLeaf(v), NumberLeaf(n))`
for each of the four operators.  At the state (leaf `5`, pool `[3]`) this
predicts a successor `5 + 3`; the code yields `next_number` on the *left*
(`OperatorNode(operator, NumberNode(next_number), node.clone())`), so the
emitted commutative successors are `3 + 5` and `3 * 5` and no emitted
successor has the node `5 + 3`. -/
theorem c3_counterexample :
    (Node.op .plus (.num 5) (.num 3))
      ∉ (generateNextStates ⟨.num 5, [3]⟩ false).map QueueItem.node := by
  decide

/-- **C3, amended.** For every state with a nonempty pool (of at most five
elements), with `v` the value of the selected leftmost leaf: for every pool
index `i` (element `n`) and each of the four operators the expander emits a
successor with `BinaryOp(operator, NumberLeaf(n), NumberLeaf(v))` — the drawn
pool number on the left — in place of the leaf, and, for the non-commutative
operators (Subtract, Divide) only, also the mirrored successor
`BinaryOp(operator, NumberLeaf(v), NumberLeaf(n))`; every pool element gets a
turn as the consumed number, every emitted successor is of one of these two
shapes, and each successor's pool is the parent's pool with exactly that one
occurrence removed (reordered). -/
theorem c3_amended_expansion (s : QueueItem) (df : Bool)
    (hne : s.remaining ≠ []) (hle : s.remaining.length ≤ 5) :
    (∀ i, ∀ hi : i < s.remaining.length, ∀ o : Operator,
      (∃ it ∈ generateNextStates s df,
        it.node = replaceLeftmost s.node
          (.op o (.num (s.remaining.get ⟨i, hi⟩)) (.num (leftmostVal s.node)))
        ∧ it.remaining.Perm (s.remaining.eraseIdx i))
      ∧ (o.commutative = false →
        ∃ it ∈ generateNextStates s df,
          it.node = replaceLeftmost s.node
            (.op o (.num (leftmostVal s.node)) (.num (s.remaining.get ⟨i, hi⟩)))
          ∧ it.remaining.Perm (s.remaining.eraseIdx i)))
    ∧ (∀ it ∈ generateNextStates s df,
        ∃ i, ∃ hi : i < s.remaining.length, ∃ o : Operator,
          it.remaining.Perm (s.remaining.eraseIdx i)
          ∧ (it.node = replaceLeftmost s.node
              (.op o (.num (s.remaining.get ⟨i, hi⟩)) (.num (leftmostVal s.node)))
            ∨ (o.commutative = false ∧ it.node = replaceLeftmost s.node
              (.op o (.num (leftmostVal s.node)) (.num (s.remaining.get ⟨i, hi⟩)))))) := by
  rw [generateNextStates_eq s df hne hle]
  constructor
  · intro i hi o
    have hget : s.remaining.get ⟨i, hi⟩ = s.remaining.getD i 0 := by
      rw [List.get_eq_getElem, List.getD_eq_getElem s.remaining 0 hi]
    have hmem := mem_expandNumber (leftmostVal s.node) s.remaining df i hi o
    constructor
    · refine ⟨⟨replaceLeftmost s.node
        (.op o (.num (s.remaining.getD i 0)) (.num (leftmostVal s.node))),
        expandRest s.remaining i df⟩, ?_, ?_, ?_⟩
      · exact List.mem_map_of_mem _ hmem.1
      · rw [hget]
      · exact expandRest_perm s.remaining i df hi
    · intro hnc
      refine ⟨⟨replaceLeftmost s.node
        (.op o (.num (leftmostVal s.node)) (.num (s.remaining.getD i 0))),
        expandRest s.remaining i df⟩, ?_, ?_, ?_⟩
      · exact List.mem_map_of_mem _ (hmem.2 hnc)
      · rw [hget]
      · exact expandRest_perm s.remaining i df hi
  · intro it hit
    rw [List.mem_map] at hit
    obtain ⟨x, hx, hxe⟩ := hit
    obtain ⟨i, hi, o, hrem, hshape⟩ :=
      expandNumber_shape (leftmostVal s.node) s.remaining df x hx
    have hget : s.remaining.get ⟨i, hi⟩ = s.remaining.getD i 0 := by
      rw [List.get_eq_getElem, List.getD_eq_getElem s.remaining 0 hi]
    refine ⟨i, hi, o, ?_, ?_⟩
    · rw [← hxe]
      simp only []
      rw [hrem]
      exact expandRest_perm s.remaining i df hi
    · rw [← hxe, hget]
      rcases hshape with h | ⟨hnc, h⟩
      · exact Or.inl (by rw [h])
      · exact Or.inr ⟨hnc, by rw [h]⟩

/-- Witness for `c3_amended_expansion` at the state (leaf `5`, pool `[3]`):
the emitted `Plus` successor is `3 + 5` (drawn number on the left). -/
theorem c3_witness :
    (([3] : List Int) ≠ [])
    ∧ ∃ it ∈ generateNextStates ⟨.num 5, [3]⟩ false,
        it.node = replaceLeftmost (.num 5)
          (.op .plus (.num (([3] : List Int).get ⟨0, by decide⟩)) (.num 5))
        ∧ it.remaining.Perm (([3] : List Int).eraseIdx 0) :=
  ⟨by decide,
    ((c3_amended_expansion ⟨.num 5, [3]⟩ false (by decide) (by decide)).1
      0 (by decide) .plus).1⟩

/-! ## The search engine (`IterativeDeepeningSolver.solve`)

`src/solvers/iterative_deepening_solver.py` lines 72-134.  The Python `while`
loop is modelled with explicit fuel: `.fuelExhausted` marks insufficient
fuel, and the termination theorem shows the fuel chosen in `solve` never
runs out.  The `visited` set holds `Node` objects whose classes define
`__hash__` but not `__eq__`, so membership is object identity; each queue
item carries the identity of its root node (`QItem.id`), freshly allocated
when the item is built, and `visited` is the list of identities added. -/

/-- A queue item together with the object identity of its (freshly
constructed) root node. -/
structure QItem where
  node : Node
  remaining : List Int
  id : Nat
deriving DecidableEq

/-- Forget the identity tag. -/
def stripId (s : QItem) : QueueItem := ⟨s.node, s.remaining⟩

/-- Allocate a fresh root-object identity to each of a run of newly built
queue items, returning the tagged items and the next free identity. -/
def assignIds : List QueueItem → Nat → List QItem × Nat
  | [], n => ([], n)
  | x :: xs, n =>
    let rest := assignIds xs (n + 1)
    (⟨x.node, x.remaining, n⟩ :: rest.1, rest.2)

/-- Removing one state from the queue: `state_queue.pop()` (last element,
depth-first) or `state_queue.pop(0)` (first element, breadth-first),
`src/solvers/iterative_deepening_solver.py` lines 100-105; `none` when the
queue is empty (the `while` guard). -/
def popItem {α : Type} (df : Bool) (q : List α) : Option (α × List α) :=
  if df then
    match q.getLast? with
    | some c => some (c, q.dropLast)
    | none => none
  else
    match q with
    | [] => none
    | x :: xs => some (x, xs)

/-- Outcome of a run of the solver loop.  `solved` is the early return on an
exact match (line 123), `exhausted` the `return best_state` after the queue
empties (line 134), `unboundBest` the `UnboundLocalError` Python would raise
at line 134 if `best_state` was never assigned, and `fuelExhausted` only
marks insufficient modelling fuel. -/
inductive LoopResult where
  | fuelExhausted
  | unboundBest
  | solved (n : Node)
  | exhausted (n : Node)
deriving DecidableEq

/-- The engine's mutable state at the top of the `while` loop:
`state_queue`, `visited` (the identities added so far), the next free object
identity, `best_dist` (initially `1000`) and `best_state` (initially
unassigned). -/
structure EngineState where
  queue : List QItem
  visited : List Nat
  nextId : Nat
  bestDist : Int
  best : Option Node
deriving DecidableEq

inductive StepResult where
  | halt (r : LoopResult)
  | next (es : EngineState)
deriving DecidableEq

/-- One iteration of the `while` loop of `IterativeDeepeningSolver.solve`
(`src/solvers/iterative_deepening_solver.py` lines 99-132): pop (front or
back); skip if the popped root is in `visited` (object identity); otherwise
record it, evaluate, return on an exact match, update the best-so-far on a
strictly smaller distance, and append the generated successor states. -/
def solveStep (target : Int) (df : Bool) (es : EngineState) : StepResult :=
  match popItem df es.queue with
  | none =>
    match es.best with
    | some m => .halt (.exhausted m)
    | none => .halt (.unboundBest)
  | some (cur, rest) =>
    if cur.id ∈ es.visited then
      .next ⟨rest, es.visited, es.nextId, es.bestDist, es.best⟩
    else
      match cur.node.eval with
      | .ok result =>
        if result = target then .halt (.solved cur.node)
        else
          let gen := assignIds (generateNextStates ⟨cur.node, cur.remaining⟩ df) es.nextId
          if |result - target| < es.bestDist then
            .next ⟨rest ++ gen.1, cur.id :: es.visited, gen.2,
                   |result - target|, some cur.node⟩
          else
            .next ⟨rest ++ gen.1, cur.id :: es.visited, gen.2,
                   es.bestDist, es.best⟩
      | .error _ =>
        let gen := assignIds (generateNextStates ⟨cur.node, cur.remaining⟩ df) es.nextId
        .next ⟨rest ++ gen.1, cur.id :: es.visited, gen.2, es.bestDist, es.best⟩

/-- The `while` loop, iterating `solveStep` under a fuel bound. -/
def solveLoopId (target : Int) (df : Bool) : Nat → EngineState → LoopResult
  | 0, _ => .fuelExhausted
  | fuel + 1, es =>
    match solveStep target df es with
    | .halt r => r
    | .next es2 => solveLoopId target df fuel es2

/-- The loop without the identity bookkeeping.  Because the popped root is
always a freshly built object, the `in visited` test of line 109 never
succeeds, and the loop is equivalent to this one
(`solveLoopId_eq_solveLoop`). -/
def solveLoop (target : Int) (df : Bool) :
    Nat → List QueueItem → Int → Option Node → LoopResult
  | 0, _, _, _ => .fuelExhausted
  | fuel + 1, q, bestDist, best =>
    match popItem df q with
    | none =>
      match best with
      | some m => .exhausted m
      | none => .unboundBest
    | some (cur, rest) =>
      match cur.node.eval with
      | .ok result =>
        if result = target then .solved cur.node
        else if |result - target| < bestDist then
          solveLoop target df fuel (rest ++ generateNextStates cur df)
            |result - target| (some cur.node)
        else
          solveLoop target df fuel (rest ++ generateNextStates cur df) bestDist best
      | .error _ =>
        solveLoop target df fuel (rest ++ generateNextStates cur df) bestDist best

/-- Every state the run of `solveLoop` ever holds on or adds to the queue:
the popped states in pop order, plus whatever is still queued when the run
stops early (exact match or fuel out).  The recursion mirrors `solveLoop`
exactly; the best-so-far tracking is omitted because it never influences
control flow. -/
def runEnqueued (target : Int) (df : Bool) : Nat → List QueueItem → List QueueItem
  | 0, q => q
  | fuel + 1, q =>
    match popItem df q with
    | none => []
    | some (cur, rest) =>
      cur ::
        match cur.node.eval with
        | .ok result =>
          if result = target then rest
          else runEnqueued target df fuel (rest ++ generateNextStates cur df)
        | .error _ => runEnqueued target df fuel (rest ++ generateNextStates cur df)

/-- Loop iterations needed to exhaust one state popped with a pool of `k`
numbers, `k ≤ 5`: itself plus its `6 * k` successors of pool size `k - 1`. -/
def stateFuelN : Nat → Nat
  | 0 => 1
  | k + 1 => 1 + 6 * (k + 1) * stateFuelN k

/-- Loop iterations needed to exhaust one popped state with a pool of `k`
numbers: a pool of six or more generates nothing (`range(6 - len(...))` is
empty). -/
def stateFuel (k : Nat) : Nat := if 6 ≤ k then 1 else stateFuelN k

/-- Loop iterations needed to drain a whole queue. -/
def measureQ (q : List QueueItem) : Nat :=
  (q.map fun s => stateFuel s.remaining.length).sum

/-- The engine's state as the `while` loop is first entered
(`src/solvers/iterative_deepening_solver.py` lines 72-96): the six seed
states (with the identities of their freshly built roots), an empty visited
set, `best_dist = 1000`, `best_state` unassigned. -/
def initEngine (numbers : List Int) : EngineState :=
  ⟨(assignIds (seedStates numbers) 0).1, [], (assignIds (seedStates numbers) 0).2,
   1000, none⟩

/-- `IterativeDeepeningSolver.solve`, given the game's numbers and target.
The fuel `measureQ (seedStates numbers) + 1` is an upper bound on the
number of `while`-loop iterations; `solve_terminates` shows it is never
exhausted. -/
def solve (numbers : List Int) (target : Int) (depthFirst : Bool) : LoopResult :=
  solveLoopId target depthFirst (measureQ (seedStates numbers) + 1)
    (initEngine numbers)

/-! ## Engine lemmas: identities, popping, the loop measure -/

theorem assignIds_strip (l : List QueueItem) :
    ∀ n : Nat, (assignIds l n).1.map stripId = l := by
  induction l with
  | nil => intro n; rfl
  | cons x xs ih =>
    intro n
    simp only [assignIds, List.map_cons, ih (n + 1)]
    rfl

theorem assignIds_snd (l : List QueueItem) :
    ∀ n : Nat, (assignIds l n).2 = n + l.length := by
  induction l with
  | nil => intro n; simp [assignIds]
  | cons x xs ih =>
    intro n
    simp only [assignIds, ih (n + 1), List.length_cons]
    omega

theorem assignIds_id_bounds (l : List QueueItem) :
    ∀ n : Nat, ∀ s ∈ (assignIds l n).1, n ≤ s.id ∧ s.id < n + l.length := by
  induction l with
  | nil => intro n s hs; simp [assignIds] at hs
  | cons x xs ih =>
    intro n s hs
    simp only [assignIds, List.mem_cons] at hs
    rcases hs with h | h
    · rw [h]; simp
    · have := ih (n + 1) s h
      simp only [List.length_cons]
      omega

theorem assignIds_nodup (l : List QueueItem) :
    ∀ n : Nat, ((assignIds l n).1.map QItem.id).Nodup := by
  induction l with
  | nil => intro n; simp [assignIds]
  | cons x xs ih =>
    intro n
    simp only [assignIds, List.map_cons, List.nodup_cons]
    refine ⟨?_, ih (n + 1)⟩
    intro hmem
    rw [List.mem_map] at hmem
    obtain ⟨s, hs, hse⟩ := hmem
    have := (assignIds_id_bounds xs (n + 1) s hs).1
    omega

theorem popItem_eq_none {α : Type} (df : Bool) (q : List α) :
    popItem df q = none ↔ q = [] := by
  cases df
  · cases q <;> simp [popItem]
  · rw [popItem.eq_def, if_pos rfl]
    cases hgl : q.getLast? with
    | none => simp [List.getLast?_eq_none_iff.mp hgl]
    | some c =>
      simp only [reduceCtorEq, false_iff]
      intro h0
      rw [h0] at hgl
      simp at hgl

theorem popItem_map {α β : Type} (f : α → β) (df : Bool) (q : List α) :
    popItem df (q.map f) = (popItem df q).map fun p => (f p.1, p.2.map f) := by
  cases df
  · cases q <;> simp [popItem]
  · simp only [popItem, if_pos rfl, List.getLast?_map]
    cases hgl : q.getLast? with
    | none => simp
    | some c => simp [List.map_dropLast]

theorem popItem_perm {α : Type} (df : Bool) (q : List α) (cur : α) (rest : List α)
    (h : popItem df q = some (cur, rest)) : q.Perm (cur :: rest) := by
  cases df
  · cases q with
    | nil => simp [popItem] at h
    | cons x xs =>
      simp only [popItem, Bool.false_eq_true, if_false, Option.some.injEq,
        Prod.mk.injEq] at h
      rw [← h.1, ← h.2]
  · rw [popItem.eq_def, if_pos rfl] at h
    cases hgl : q.getLast? with
    | none => rw [hgl] at h; simp at h
    | some c =>
      rw [hgl] at h
      simp only [Option.some.injEq, Prod.mk.injEq] at h
      have hne : q ≠ [] := by
        intro h0; rw [h0] at hgl; simp at hgl
      have hlast : q.getLast hne = cur := by
        rw [List.getLast?_eq_getLast q hne] at hgl
        rw [← h.1]
        exact Option.some.inj hgl
      have hdecomp : q = rest ++ [cur] := by
        rw [← h.2, ← hlast]
        exact (List.dropLast_append_getLast hne).symm
      rw [hdecomp]
      exact List.perm_append_comm.trans (List.Perm.refl _)

theorem measureQ_append (a b : List QueueItem) :
    measureQ (a ++ b) = measureQ a + measureQ b := by
  rw [measureQ, List.map_append, List.sum_append]; rfl

theorem measureQ_perm (a b : List QueueItem) (h : a.Perm b) :
    measureQ a = measureQ b := by
  rw [measureQ, measureQ]
  exact (h.map fun s => stateFuel s.remaining.length).sum_eq

theorem stateFuel_pos (k : Nat) : 0 < stateFuel k := by
  rw [stateFuel]
  by_cases h : 6 ≤ k
  · simp [h]
  · rw [if_neg h]
    cases k with
    | zero => simp [stateFuelN]
    | succ j => rw [stateFuelN]; omega

/-- Draining one popped state costs one iteration for itself plus the cost
of its generated successors: `measureQ (successors) + 1 = stateFuel (pool size)`. -/
theorem measureQ_generate (s : QueueItem) (df : Bool) :
    measureQ (generateNextStates s df) + 1 = stateFuel s.remaining.length := by
  by_cases hne : s.remaining = []
  · rw [generateNextStates_of_empty s df hne, hne]
    simp [measureQ, stateFuel, stateFuelN]
  · by_cases hle : s.remaining.length ≤ 5
    · have hpos : 0 < s.remaining.length := List.length_pos.mpr hne
      have hlen : ∀ it ∈ generateNextStates s df,
          stateFuel it.remaining.length = stateFuel (s.remaining.length - 1) := by
        intro it hit
        have := generateNextStates_remaining_length s df it hit
        have : it.remaining.length = s.remaining.length - 1 := by omega
        rw [this]
      have hmap : (generateNextStates s df).map
          (fun it => stateFuel it.remaining.length) =
          List.replicate (generateNextStates s df).length
            (stateFuel (s.remaining.length - 1)) := by
        have hall : ∀ x ∈ (generateNextStates s df).map
            fun it => stateFuel it.remaining.length,
            x = stateFuel (s.remaining.length - 1) := by
          intro x hx
          rw [List.mem_map] at hx
          obtain ⟨it, hit, hxe⟩ := hx
          rw [← hxe]
          exact hlen it hit
        have := List.eq_replicate_of_mem hall
        rw [this, List.length_map]
      rw [measureQ, hmap, List.sum_replicate, smul_eq_mul,
        generateNextStates_count s df hne hle]
      obtain ⟨j, hj⟩ : ∃ j, s.remaining.length = j + 1 :=
        ⟨s.remaining.length - 1, by omega⟩
      rw [hj]
      have h1 : stateFuel (j + 1) = stateFuelN (j + 1) := by
        rw [stateFuel, if_neg (by omega)]
      have h2 : stateFuel (j + 1 - 1) = stateFuelN j := by
        have hj1 : j + 1 - 1 = j := rfl
        rw [hj1, stateFuel, if_neg (by omega)]
      rw [h1, h2, stateFuelN]
      ring
    · rw [generateNextStates_of_big s df (by omega)]
      rw [stateFuel, if_pos (by omega)]
      simp [measureQ]

/-! ## The identity-based visited test never fires

Every root node put on the queue is freshly constructed (`NumberNode(...)`
at seeding, `OperatorNode(...)` in `visit_number` and `visit_operator`), so
its identity differs from every earlier one; the `in visited` test of line
109 therefore never succeeds, and the loop behaves as `solveLoop`. -/

/-- Invariant of the engine state: queue identities are pairwise distinct,
below the next free identity and unvisited; visited identities are below the
next free identity. -/
def FreshQ (q : List QItem) (visited : List Nat) (nextId : Nat) : Prop :=
  (q.map QItem.id).Nodup
  ∧ (∀ s ∈ q, s.id < nextId ∧ s.id ∉ visited)
  ∧ (∀ v ∈ visited, v < nextId)

theorem freshQ_step {df : Bool} (q : List QItem) (visited : List Nat)
    (nextId : Nat) (cur : QItem) (rest : List QItem) (g : List QueueItem)
    (hf : FreshQ q visited nextId) (hpop : popItem df q = some (cur, rest)) :
    FreshQ (rest ++ (assignIds g nextId).1) (cur.id :: visited)
      (assignIds g nextId).2 := by
  obtain ⟨hnodup, hq, hvis⟩ := hf
  have hperm := popItem_perm df q cur rest hpop
  have hcur : cur ∈ q := hperm.mem_iff.mpr (List.mem_cons_self cur rest)
  have hrest : ∀ s ∈ rest, s ∈ q := fun s hs =>
    hperm.mem_iff.mpr (List.mem_cons_of_mem cur hs)
  have hids : ((cur :: rest).map QItem.id).Nodup :=
    (hperm.map QItem.id).nodup hnodup
  rw [List.map_cons, List.nodup_cons] at hids
  obtain ⟨hcurid, hrestid⟩ := hids
  have hsnd := assignIds_snd g nextId
  refine ⟨?_, ?_, ?_⟩
  · rw [List.map_append, List.nodup_append]
    refine ⟨hrestid, assignIds_nodup g nextId, ?_⟩
    intro x hx hx2
    rw [List.mem_map] at hx hx2
    obtain ⟨s, hs, hse⟩ := hx
    obtain ⟨s2, hs2, hse2⟩ := hx2
    have h1 := (hq s (hrest s hs)).1
    have h2 := (assignIds_id_bounds g nextId s2 hs2).1
    omega
  · intro s hs
    rw [List.mem_append] at hs
    rcases hs with hs | hs
    · have h1 := hq s (hrest s hs)
      have hsne : s.id ≠ cur.id := by
        intro he
        exact hcurid (he ▸ List.mem_map_of_mem QItem.id hs)
      refine ⟨by omega, ?_⟩
      rw [List.mem_cons]
      rintro (h | h)
      · exact hsne h
      · exact h1.2 h
    · have h2 := assignIds_id_bounds g nextId s hs
      have hcurlt := (hq cur hcur).1
      refine ⟨by omega, ?_⟩
      rw [List.mem_cons]
      rintro (h | h)
      · omega
      · have := hvis s.id h
        omega
  · intro v hv
    rw [List.mem_cons] at hv
    rcases hv with h | h
    · have := (hq cur hcur).1
      omega
    · have := hvis v h
      omega

/-- Under freshness, the `in visited` test never succeeds, so the loop with
identity bookkeeping computes the same result as the plain loop on the
stripped queue. -/
theorem solveLoopId_eq_solveLoop (t : Int) (df : Bool) :
    ∀ (fuel : Nat) (es : EngineState),
      FreshQ es.queue es.visited es.nextId →
      solveLoopId t df fuel es =
        solveLoop t df fuel (es.queue.map stripId) es.bestDist es.best := by
  intro fuel
  induction fuel with
  | zero => intro es hf; rfl
  | succ fuel ih =>
    intro es hf
    cases hpop : popItem df es.queue with
    | none =>
      have hmap : popItem df (es.queue.map stripId) = none := by
        rw [popItem_map, hpop]; rfl
      simp only [solveLoopId, solveStep, solveLoop, hpop, hmap]
      cases es.best <;> rfl
    | some p =>
      obtain ⟨cur, rest⟩ := p
      have hmap : popItem df (es.queue.map stripId)
          = some (stripId cur, rest.map stripId) := by
        rw [popItem_map, hpop]; rfl
      have hperm := popItem_perm df es.queue cur rest hpop
      have hcur : cur ∈ es.queue := hperm.mem_iff.mpr (List.mem_cons_self cur rest)
      have hnotvis : cur.id ∉ es.visited := (hf.2.1 cur hcur).2
      have hfresh2 := freshQ_step es.queue es.visited es.nextId cur rest
        (generateNextStates ⟨cur.node, cur.remaining⟩ df) hf hpop
      have hstrip : (stripId cur).node = cur.node := rfl
      cases heval : cur.node.eval with
      | ok result =>
        by_cases hexact : result = t
        · simp only [solveLoopId, solveStep, solveLoop, hpop, hmap, hstrip, heval,
            if_neg hnotvis, if_pos hexact]
        · by_cases himp : |result - t| < es.bestDist
          · simp only [solveLoopId, solveStep, solveLoop, hpop, hmap, hstrip, heval,
              if_neg hnotvis, if_neg hexact, if_pos himp]
            rw [ih _ hfresh2]
            simp only [List.map_append, assignIds_strip]
            rfl
          · simp only [solveLoopId, solveStep, solveLoop, hpop, hmap, hstrip, heval,
              if_neg hnotvis, if_neg hexact, if_neg himp]
            rw [ih _ hfresh2]
            simp only [List.map_append, assignIds_strip]
            rfl
      | error e =>
        simp only [solveLoopId, solveStep, solveLoop, hpop, hmap, hstrip, heval,
          if_neg hnotvis]
        rw [ih _ hfresh2]
        simp only [List.map_append, assignIds_strip]
        rfl

theorem freshQ_init (numbers : List Int) :
    FreshQ (initEngine numbers).queue (initEngine numbers).visited
      (initEngine numbers).nextId := by
  have hq : (initEngine numbers).queue = (assignIds (seedStates numbers) 0).1 := rfl
  have hv : (initEngine numbers).visited = [] := rfl
  have hn : (initEngine numbers).nextId = (assignIds (seedStates numbers) 0).2 := rfl
  rw [FreshQ, hq, hv, hn]
  refine ⟨assignIds_nodup (seedStates numbers) 0, ?_, ?_⟩
  · intro s hs
    have hb := assignIds_id_bounds (seedStates numbers) 0 s hs
    rw [assignIds_snd]
    exact ⟨by omega, by simp⟩
  · intro v hv2
    simp at hv2

/-- `solve` computes the plain loop on the seed states. -/
theorem solve_eq_solveLoop (numbers : List Int) (t : Int) (df : Bool) :
    solve numbers t df =
      solveLoop t df (measureQ (seedStates numbers) + 1) (seedStates numbers)
        1000 none := by
  rw [solve, solveLoopId_eq_solveLoop t df _ _ (freshQ_init numbers)]
  rw [initEngine]
  rw [assignIds_strip (seedStates numbers) 0]

/-! ## Termination and the returned results -/

theorem measureQ_cons (x : QueueItem) (l : List QueueItem) :
    measureQ (x :: l) = stateFuel x.remaining.length + measureQ l := by
  rw [measureQ, List.map_cons, List.sum_cons]
  rfl

/-- With fuel exceeding the queue measure, the loop never runs out: each
iteration decreases the measure by exactly one (a popped state's own cost is
one plus the cost of its successors). -/
theorem solveLoop_no_fuelOut (t : Int) (df : Bool) :
    ∀ (fuel : Nat) (q : List QueueItem) (bd : Int) (b : Option Node),
      measureQ q < fuel →
      solveLoop t df fuel q bd b ≠ .fuelExhausted := by
  intro fuel
  induction fuel with
  | zero => intro q bd b h; exact absurd h (Nat.not_lt_zero _)
  | succ fuel ih =>
    intro q bd b h
    cases hpop : popItem df q with
    | none =>
      simp only [solveLoop, hpop]
      cases b <;> simp
    | some p =>
      obtain ⟨cur, rest⟩ := p
      have hperm := popItem_perm df q cur rest hpop
      have hmq : measureQ q = stateFuel cur.remaining.length + measureQ rest := by
        rw [measureQ_perm q (cur :: rest) hperm, measureQ_cons]
      have hgen : measureQ (rest ++ generateNextStates cur df) < fuel := by
        rw [measureQ_append]
        have h2 := measureQ_generate cur df
        omega
      cases heval : cur.node.eval with
      | ok result =>
        by_cases hexact : result = t
        · simp only [solveLoop, hpop, heval, if_pos hexact]
          simp
        · by_cases himp : |result - t| < bd
          · simp only [solveLoop, hpop, heval, if_neg hexact, if_pos himp]
            exact ih _ _ _ hgen
          · simp only [solveLoop, hpop, heval, if_neg hexact, if_neg himp]
            exact ih _ _ _ hgen
      | error e =>
        simp only [solveLoop, hpop, heval]
        exact ih _ _ _ hgen

theorem solve_terminates (numbers : List Int) (t : Int) (df : Bool) :
    solve numbers t df ≠ .fuelExhausted := by
  rw [solve_eq_solveLoop]
  exact solveLoop_no_fuelOut t df _ _ 1000 none (by omega)

/-- **C9.** For every 6-number input and target, `solve` terminates within a
bounded number of loop iterations in both breadth-first and depth-first
mode (the chosen fuel, an explicit bound on the number of iterations, is
never exhausted); every successor state's pool is exactly one element
smaller than its parent's, and expansion halts when the pool is empty, so
the search space is finite. -/
theorem c9_termination (numbers : List Int) (target : Int)
    (_h6 : numbers.length = 6) :
    (∀ df : Bool, solve numbers target df ≠ .fuelExhausted)
    ∧ (∀ (s : QueueItem) (df : Bool), ∀ it ∈ generateNextStates s df,
        it.remaining.length + 1 = s.remaining.length)
    ∧ (∀ (s : QueueItem) (df : Bool), s.remaining = [] →
        generateNextStates s df = []) :=
  ⟨fun df => solve_terminates numbers target df,
   fun s df => generateNextStates_remaining_length s df,
   fun s df h => generateNextStates_of_empty s df h⟩

/-- Witness for `c9_termination` at the spec's unsolvable example
`numbers = [1,1,1,1,1,1]`, `target = 999`, in both modes. -/
theorem c9_witness :
    (([1, 1, 1, 1, 1, 1] : List Int).length = 6)
    ∧ solve [1, 1, 1, 1, 1, 1] 999 false ≠ .fuelExhausted
    ∧ solve [1, 1, 1, 1, 1, 1] 999 true ≠ .fuelExhausted :=
  ⟨rfl, (c9_termination [1, 1, 1, 1, 1, 1] 999 rfl).1 false,
    (c9_termination [1, 1, 1, 1, 1, 1] 999 rfl).1 true⟩

/-- **C5.** If a popped state's tree evaluates exactly to the target, the
loop returns that tree at once (`.solved`, no further pops or expansions);
in particular for `numbers = [1,2,3,4,5,6]`, `target = 6`, `solve` returns
the bare seed leaf `6`, whose evaluation is `6`, and one single loop
iteration (fuel 1, so no expansion of any state) already produces it. -/
theorem c5_immediate_match :
    (∀ (t : Int) (df : Bool) (fuel : Nat) (q : List QueueItem) (bd : Int)
        (b : Option Node) (cur : QueueItem) (rest : List QueueItem),
      popItem df q = some (cur, rest) → cur.node.eval = .ok t →
      solveLoop t df (fuel + 1) q bd b = .solved cur.node)
    ∧ solve [1, 2, 3, 4, 5, 6] 6 false = .solved (.num 6)
    ∧ (Node.num 6).eval = .ok 6
    ∧ solveLoopId 6 false 1 (initEngine [1, 2, 3, 4, 5, 6]) = .solved (.num 6) := by
  refine ⟨?_, by decide, rfl, by decide⟩
  intro t df fuel q bd b cur rest hpop heval
  simp [solveLoop, hpop, heval]

/-- Witness for `c5_immediate_match`: a one-state queue whose tree is the
bare leaf `7`, target `7`. -/
theorem c5_witness :
    popItem false [(⟨.num 7, []⟩ : QueueItem)] = some (⟨.num 7, []⟩, [])
    ∧ (Node.num 7).eval = .ok 7
    ∧ solveLoop 7 false 1 [⟨.num 7, []⟩] 1000 none = .solved (.num 7) :=
  ⟨rfl, rfl,
    c5_immediate_match.1 7 false 0 [⟨.num 7, []⟩] 1000 none ⟨.num 7, []⟩ []
      rfl rfl⟩

/-- **C7.** When the popped state's tree fails evaluation with any of the
three arithmetic errors, the error is recovered locally: the loop simply
continues (no error is returned or propagated — `LoopResult` has no error
outcome), the best-so-far pair is left unchanged, and the successor states
`generateNextStates cur df` are appended to the queue exactly as in the
evaluable non-matching branch of `solveLoop`. -/
theorem c7_error_recovery (t : Int) (df : Bool) (fuel : Nat)
    (q : List QueueItem) (bd : Int) (b : Option Node) (cur : QueueItem)
    (rest : List QueueItem) (e : EvalError)
    (hpop : popItem df q = some (cur, rest))
    (he : cur.node.eval = .error e) :
    solveLoop t df (fuel + 1) q bd b =
      solveLoop t df fuel (rest ++ generateNextStates cur df) bd b := by
  simp only [solveLoop, hpop, he]

/-- Witness for `c7_error_recovery`: popping `1 - 2` (which fails with
`NonPositiveResult`) with pool `[3]` continues the loop with its successors
and an unchanged best-so-far. -/
theorem c7_witness :
    popItem false [(⟨.op .minus (.num 1) (.num 2), [3]⟩ : QueueItem)]
      = some (⟨.op .minus (.num 1) (.num 2), [3]⟩, [])
    ∧ (Node.op .minus (.num 1) (.num 2)).eval = .error .nonPositiveResult
    ∧ solveLoop 100 false 1 [⟨.op .minus (.num 1) (.num 2), [3]⟩] 1000 none =
        solveLoop 100 false 0
          ([] ++ generateNextStates ⟨.op .minus (.num 1) (.num 2), [3]⟩ false)
          1000 none :=
  ⟨rfl, rfl,
    c7_error_recovery 100 false 0 [⟨.op .minus (.num 1) (.num 2), [3]⟩] 1000
      none ⟨.op .minus (.num 1) (.num 2), [3]⟩ [] .nonPositiveResult rfl rfl⟩

/-! ## The deduplication defect (C1) -/

/-- The engine state for `numbers = [1, 1, 2, 2, 3, 3]`, `target = 100`
(breadth-first) as the `while` loop is entered.  The first two queue items
are distinct freshly built `NumberNode(3)` roots whose renderings are both
`"3"`. -/
def c1demo0 : EngineState := initEngine [1, 1, 2, 2, 3, 3]

/-- The engine state after the first loop iteration. -/
def c1demo1 : EngineState :=
  match solveStep 100 false c1demo0 with
  | .next es => es
  | .halt _ => c1demo0

/-- The engine state after the second loop iteration. -/
def c1demo2 : EngineState :=
  match solveStep 100 false c1demo1 with
  | .next es => es
  | .halt _ => c1demo1

/-- **C1, the code's behaviour at the failing input.**  With
`numbers = [1, 1, 2, 2, 3, 3]` and `target = 100`, the state popped by the
second iteration renders identically (`"3"`) to the state popped by the
first — by the claim it should be discarded without evaluation or
expansion.  Instead, because `NumberNode`/`OperatorNode` define `__hash__`
but not `__eq__`, the `in visited` membership test compares by object
identity; the second root is a different freshly built object (identity 1,
not in the visited set `[0]`), so the iteration proceeds: the queue goes
from 35 items (4 remaining seeds + 30 successors of the first pop) to 64
(minus the second pop, plus its 30 successors) rather than to the 34 that
discarding would leave. -/
theorem c1_identity_dedup_never_discards :
    solveStep 100 false c1demo0 = .next c1demo1
    ∧ solveStep 100 false c1demo1 = .next c1demo2
    ∧ (popItem false c1demo0.queue).map (fun p => p.1.node.render) = some "3"
    ∧ (popItem false c1demo1.queue).map (fun p => p.1.node.render) = some "3"
    ∧ (popItem false c1demo1.queue).map (fun p => p.1.id) = some 1
    ∧ c1demo1.visited = [0]
    ∧ 1 ∉ c1demo1.visited
    ∧ c1demo1.queue.length = 35
    ∧ c1demo2.queue.length = 64 := by
  refine ⟨?_, ?_, ?_, ?_, ?_, ?_, ?_, ?_, ?_⟩ <;> decide

/-! ## Conservation of the six numbers (C10) -/

theorem leafVals_ne_nil (tr : Node) : leafVals tr ≠ [] := by
  induction tr with
  | num v => simp [leafVals]
  | op o l r ihl ihr =>
    simp only [leafVals]
    intro h
    exact ihl (List.append_eq_nil.mp h).1

theorem leafVals_eq_leftmost_cons (tr : Node) :
    leafVals tr = leftmostVal tr :: (leafVals tr).tail := by
  induction tr with
  | num v => rfl
  | op o l r ihl ihr =>
    simp only [leafVals, leftmostVal]
    rw [ihl]
    rfl

theorem leafVals_replaceLeftmost (tr sub : Node) :
    leafVals (replaceLeftmost tr sub) = leafVals sub ++ (leafVals tr).tail := by
  induction tr with
  | num v => simp [replaceLeftmost, leafVals]
  | op o l r ihl ihr =>
    simp only [replaceLeftmost, leafVals, ihl]
    cases hl : leafVals l with
    | nil => exact absurd hl (leafVals_ne_nil l)
    | cons x xs => simp

theorem cons_eraseIdx_perm (l : List Int) (i : Nat) (hi : i < l.length) :
    (l.getD i 0 :: l.eraseIdx i).Perm l := by
  conv_rhs => rw [← List.take_append_drop i l]
  rw [List.eraseIdx_eq_take_drop_succ, List.getD_eq_getElem l 0 hi,
    ← List.getElem_cons_drop l i hi]
  exact List.perm_middle.symm

/-- One expansion step conserves the multiset of numbers: the successor's
leaves plus its pool permute to the parent's leaves plus its pool. -/
theorem generate_conserves (s : QueueItem) (df : Bool) (it : QueueItem)
    (hit : it ∈ generateNextStates s df) (numbers : List Int)
    (hP : (leafVals s.node ++ s.remaining).Perm numbers) :
    (leafVals it.node ++ it.remaining).Perm numbers := by
  by_cases hne : s.remaining = []
  · rw [generateNextStates_of_empty s df hne] at hit
    simp at hit
  · by_cases hle : s.remaining.length ≤ 5
    · rw [generateNextStates_eq s df hne hle] at hit
      rw [List.mem_map] at hit
      obtain ⟨x, hx, hxe⟩ := hit
      obtain ⟨i, hi, o, hrem, hshape⟩ :=
        expandNumber_shape (leftmostVal s.node) s.remaining df x hx
      have hxr : x.remaining.Perm (s.remaining.eraseIdx i) := by
        rw [hrem]
        exact expandRest_perm s.remaining i df hi
      have hcons := cons_eraseIdx_perm s.remaining i hi
      have hPv : ((leftmostVal s.node :: (leafVals s.node).tail)
          ++ s.remaining).Perm numbers := by
        rw [← leafVals_eq_leftmost_cons]
        exact hP
      rw [← hxe]
      have hnode :
          leafVals (replaceLeftmost s.node x.node)
            = leafVals x.node ++ (leafVals s.node).tail :=
        leafVals_replaceLeftmost s.node x.node
      simp only [hnode]
      set v := leftmostVal s.node
      set n := s.remaining.getD i 0
      set tl := (leafVals s.node).tail
      set er := s.remaining.eraseIdx i
      have hkey : ∀ leafTwo : List Int, leafTwo.Perm [n, v] →
          ((leafTwo ++ tl) ++ x.remaining).Perm numbers := by
        intro leafTwo hTwo
        have h1 : ((leafTwo ++ tl) ++ x.remaining).Perm ((leafTwo ++ tl) ++ er) :=
          List.Perm.append_left (leafTwo ++ tl) hxr
        have h2 : ((leafTwo ++ tl) ++ er).Perm ((([n, v] : List Int) ++ tl) ++ er) :=
          List.Perm.append_right er (List.Perm.append_right tl hTwo)
        have h3 : ((([n, v] : List Int) ++ tl) ++ er).Perm (v :: (tl ++ (n :: er))) := by
          have heq : (([n, v] : List Int) ++ tl) ++ er = n :: v :: (tl ++ er) := by
            simp
          rw [heq]
          have hswap : (n :: v :: (tl ++ er)).Perm (v :: n :: (tl ++ er)) :=
            List.Perm.swap v n (tl ++ er)
          have hmid : (n :: (tl ++ er)).Perm (tl ++ n :: er) := List.perm_middle.symm
          exact hswap.trans (hmid.cons v)
        have h4 : (v :: (tl ++ (n :: er))).Perm (v :: (tl ++ s.remaining)) :=
          (List.Perm.append_left tl hcons).cons v
        have h5 : (v :: (tl ++ s.remaining)).Perm numbers := by
          have : v :: (tl ++ s.remaining) = (v :: tl) ++ s.remaining := rfl
          rw [this]
          exact hPv
        exact (((h1.trans h2).trans h3).trans h4).trans h5
      rcases hshape with h | ⟨_, h⟩
      · rw [h]
        exact hkey [n, v] (List.Perm.refl _)
      · rw [h]
        exact hkey [v, n] (List.Perm.swap n v [])
    · rw [generateNextStates_of_big s df (by omega)] at hit
      simp at hit

/-- Each of the six seed states carries every input number exactly once:
its single leaf plus its pool permute to the input list. -/
theorem seedStates_conserve (numbers : List Int) (h6 : numbers.length = 6) :
    ∀ s ∈ seedStates numbers, (leafVals s.node ++ s.remaining).Perm numbers := by
  intro s hs
  simp only [seedStates, List.mem_map, List.mem_range] at hs
  obtain ⟨i, hi, hse⟩ := hs
  have hlen : (sortDesc numbers).length = 6 := by
    rw [sortDesc_length, h6]
  rw [h6] at hi
  have hi2 : i < (sortDesc numbers).length := by omega
  have hbase : 7 * i = i * ((sortDesc numbers).length + 1) := by
    rw [hlen]; ring
  have hnode : cycGet (sortDesc numbers) (7 * i) = (sortDesc numbers).getD i 0 := by
    rw [hbase]
    exact cycGet_start (sortDesc numbers) i hi2
  have hslice : ((List.range 5).map
      fun j => cycGet (sortDesc numbers) (7 * i + 1 + j))
      = (sortDesc numbers).drop (i + 1) ++ (sortDesc numbers).take i := by
    have h5 : (5 : Nat) = (sortDesc numbers).length - 1 := by omega
    have harg : ∀ j : Nat, 7 * i + 1 + j
        = i * ((sortDesc numbers).length + 1) + 1 + j := by
      intro j; omega
    rw [h5]
    have := cycSlice_eq (sortDesc numbers) i hi2
    rw [← this]
    apply List.map_congr_left
    intro j _
    rw [harg j]
  have hrest : (sortAsc ((List.range 5).map
      fun j => cycGet (sortDesc numbers) (7 * i + 1 + j))).Perm
      ((sortDesc numbers).eraseIdx i) := by
    refine (sortAsc_perm _).trans ?_
    rw [hslice, List.eraseIdx_eq_take_drop_succ]
    exact List.perm_append_comm
  rw [← hse]
  simp only [leafVals, hnode]
  have h1 : ((sortDesc numbers).getD i 0 ::
      sortAsc ((List.range 5).map fun j =>
        cycGet (sortDesc numbers) (7 * i + 1 + j))).Perm
      ((sortDesc numbers).getD i 0 :: (sortDesc numbers).eraseIdx i) :=
    hrest.cons _
  have h2 := cons_eraseIdx_perm (sortDesc numbers) i hi2
  have h3 := sortDesc_perm numbers
  exact ((h1.trans h2).trans h3)

/-- Conservation along a whole run: if every queued state conserves the
numbers, so does every state the run ever enqueues. -/
theorem runEnqueued_conserve (numbers : List Int) (t : Int) (df : Bool) :
    ∀ (fuel : Nat) (q : List QueueItem),
      (∀ s ∈ q, (leafVals s.node ++ s.remaining).Perm numbers) →
      ∀ s ∈ runEnqueued t df fuel q,
        (leafVals s.node ++ s.remaining).Perm numbers := by
  intro fuel
  induction fuel with
  | zero => intro q hq s hs; exact hq s hs
  | succ fuel ih =>
    intro q hq s hs
    cases hpop : popItem df q with
    | none =>
      simp only [runEnqueued, hpop] at hs
      simp at hs
    | some p =>
      obtain ⟨cur, rest⟩ := p
      have hperm := popItem_perm df q cur rest hpop
      have hcur := hq cur (hperm.mem_iff.mpr (List.mem_cons_self cur rest))
      have hrest : ∀ x ∈ rest, (leafVals x.node ++ x.remaining).Perm numbers :=
        fun x hx => hq x (hperm.mem_iff.mpr (List.mem_cons_of_mem cur hx))
      have hq2 : ∀ x ∈ rest ++ generateNextStates cur df,
          (leafVals x.node ++ x.remaining).Perm numbers := by
        intro x hx
        rcases List.mem_append.mp hx with h | h
        · exact hrest x h
        · exact generate_conserves cur df x h numbers hcur
      simp only [runEnqueued, hpop] at hs
      cases heval : cur.node.eval with
      | ok result =>
        simp only [heval] at hs
        by_cases hexact : result = t
        · rw [if_pos hexact] at hs
          rcases List.mem_cons.mp hs with h | h
          · rw [h]; exact hcur
          · exact hrest s h
        · rw [if_neg hexact] at hs
          rcases List.mem_cons.mp hs with h | h
          · rw [h]; exact hcur
          · exact ih _ hq2 s h
      | error e =>
        simp only [heval] at hs
        rcases List.mem_cons.mp hs with h | h
        · rw [h]; exact hcur
        · exact ih _ hq2 s h

/-- **C10.** Every state ever enqueued in a run started from the six seed
states — the seeds themselves and every successor produced by expansion —
satisfies the conservation invariant: the leaves of its tree together with
its remaining pool permute to the input 6-number list; consequently the
tree has between 1 and 6 leaves and the pool holds exactly `6 - leafcount`
numbers, so no input number is used more than once within a state. -/
theorem c10_conservation (numbers : List Int) (h6 : numbers.length = 6)
    (t : Int) (df : Bool) (fuel : Nat) :
    ∀ s ∈ runEnqueued t df fuel (seedStates numbers),
      (leafVals s.node ++ s.remaining).Perm numbers
      ∧ 1 ≤ (leafVals s.node).length
      ∧ (leafVals s.node).length ≤ 6
      ∧ s.remaining.length = 6 - (leafVals s.node).length := by
  intro s hs
  have hP := runEnqueued_conserve numbers t df fuel (seedStates numbers)
    (seedStates_conserve numbers h6) s hs
  have hlen := hP.length_eq
  rw [List.length_append, h6] at hlen
  have hpos : 0 < (leafVals s.node).length :=
    List.length_pos.mpr (leafVals_ne_nil s.node)
  exact ⟨hP, by omega, by omega, by omega⟩

/-- Witness for `c10_conservation`: the first seed state of
`[1, 2, 3, 4, 5, 6]` (leaf `6`, pool `[1, 2, 3, 4, 5]`). -/
theorem c10_witness :
    (([1, 2, 3, 4, 5, 6] : List Int).length = 6)
    ∧ ((⟨.num 6, [1, 2, 3, 4, 5]⟩ : QueueItem) ∈
        runEnqueued 999 false 0 (seedStates [1, 2, 3, 4, 5, 6]))
    ∧ ((leafVals (.num 6) ++ [1, 2, 3, 4, 5]).Perm [1, 2, 3, 4, 5, 6]
        ∧ 1 ≤ (leafVals (.num 6)).length
        ∧ (leafVals (.num 6)).length ≤ 6
        ∧ ([1, 2, 3, 4, 5] : List Int).length = 6 - (leafVals (.num 6)).length) :=
  ⟨rfl, by decide,
    c10_conservation [1, 2, 3, 4, 5, 6] rfl 999 false 0
      ⟨.num 6, [1, 2, 3, 4, 5]⟩ (by decide)⟩

/-! ## Best-effort fallback (C6) -/

/-- If the loop drains its queue and returns the best-so-far tree, that tree
evaluates successfully, its distance to the target is within the incoming
best distance, and it is at least as close as every successfully evaluated
state the run ever enqueued.  The hypothesis ties the incoming best pair
together: a recorded best tree evaluates within the recorded distance. -/
theorem solveLoop_exhausted_best (t : Int) (df : Bool) :
    ∀ (fuel : Nat) (q : List QueueItem) (bd : Int) (b : Option Node) (n : Node),
      (∀ m, b = some m → ∃ rm, m.eval = .ok rm ∧ |rm - t| ≤ bd) →
      solveLoop t df fuel q bd b = .exhausted n →
      ∃ rn, n.eval = .ok rn ∧ |rn - t| ≤ bd
        ∧ ∀ it ∈ runEnqueued t df fuel q, ∀ r, it.node.eval = .ok r →
            |rn - t| ≤ |r - t| := by
  intro fuel
  induction fuel with
  | zero =>
    intro q bd b n hb heq
    exact absurd heq (by simp [solveLoop])
  | succ fuel ih =>
    intro q bd b n hb heq
    cases hpop : popItem df q with
    | none =>
      cases hbb : b with
      | none =>
        simp only [solveLoop, hpop, hbb] at heq
        exact absurd heq (by simp)
      | some m =>
        simp only [solveLoop, hpop, hbb, LoopResult.exhausted.injEq] at heq
        obtain ⟨rm, hok, hle⟩ := hb m hbb
        refine ⟨rm, by rw [← heq]; exact hok, hle, ?_⟩
        simp only [runEnqueued, hpop]
        intro it hit
        simp at hit
    | some p =>
      obtain ⟨cur, rest⟩ := p
      simp only [solveLoop, hpop] at heq
      cases heval : cur.node.eval with
      | ok result =>
        simp only [heval] at heq
        by_cases hexact : result = t
        · rw [if_pos hexact] at heq
          exact absurd heq (by simp)
        · rw [if_neg hexact] at heq
          by_cases himp : |result - t| < bd
          · rw [if_pos himp] at heq
            have hb2 : ∀ m, (some cur.node : Option Node) = some m →
                ∃ rm, m.eval = .ok rm ∧ |rm - t| ≤ |result - t| := by
              intro m hm
              rw [← Option.some.inj hm]
              exact ⟨result, heval, le_refl _⟩
            obtain ⟨rn, hok, hle, hall⟩ := ih _ _ _ n hb2 heq
            refine ⟨rn, hok, le_trans hle (le_of_lt himp), ?_⟩
            simp only [runEnqueued, hpop, heval, if_neg hexact]
            intro it hit
            rcases List.mem_cons.mp hit with h | h
            · intro r hr
              rw [h, heval] at hr
              rw [← Except.ok.inj hr]
              exact hle
            · exact hall it h
          · rw [if_neg himp] at heq
            obtain ⟨rn, hok, hle, hall⟩ := ih _ _ _ n hb heq
            refine ⟨rn, hok, hle, ?_⟩
            simp only [runEnqueued, hpop, heval, if_neg hexact]
            intro it hit
            rcases List.mem_cons.mp hit with h | h
            · intro r hr
              rw [h, heval] at hr
              rw [← Except.ok.inj hr]
              exact le_trans hle (not_lt.mp himp)
            · exact hall it h
      | error e =>
        simp only [heval] at heq
        obtain ⟨rn, hok, hle, hall⟩ := ih _ _ _ n hb heq
        refine ⟨rn, hok, hle, ?_⟩
        simp only [runEnqueued, hpop, heval]
        intro it hit
        rcases List.mem_cons.mp hit with h | h
        · intro r hr
          rw [h, heval] at hr
          exact absurd hr (by simp)
        · exact hall it h

/-- Once `best_state` has been assigned it stays assigned, so the run can no
longer end in the unbound-variable outcome. -/
theorem solveLoop_some_ne_unbound (t : Int) (df : Bool) :
    ∀ (fuel : Nat) (q : List QueueItem) (bd : Int) (m : Node),
      solveLoop t df fuel q bd (some m) ≠ .unboundBest := by
  intro fuel
  induction fuel with
  | zero => intro q bd m; simp [solveLoop]
  | succ fuel ih =>
    intro q bd m
    cases hpop : popItem df q with
    | none => simp [solveLoop, hpop]
    | some p =>
      obtain ⟨cur, rest⟩ := p
      cases heval : cur.node.eval with
      | ok result =>
        by_cases hexact : result = t
        · simp [solveLoop, hpop, heval, hexact]
        · by_cases himp : |result - t| < bd
          · simp only [solveLoop, hpop, heval, if_neg hexact, if_pos himp]
            exact ih _ _ _
          · simp only [solveLoop, hpop, heval, if_neg hexact, if_neg himp]
            exact ih _ _ _
      | error e =>
        simp only [solveLoop, hpop, heval]
        exact ih _ _ _

/-- Every seed state's tree is a bare leaf holding one of the input
numbers. -/
theorem seedStates_node (numbers : List Int) (hne : numbers ≠ []) :
    ∀ s ∈ seedStates numbers, ∃ v ∈ numbers, s.node = .num v := by
  intro s hs
  simp only [seedStates, List.mem_map, List.mem_range] at hs
  obtain ⟨i, _, hse⟩ := hs
  have hlen : 0 < (sortDesc numbers).length := by
    rw [sortDesc_length]
    exact List.length_pos.mpr hne
  have hmod : 7 * i % (sortDesc numbers).length < (sortDesc numbers).length :=
    Nat.mod_lt _ hlen
  refine ⟨cycGet (sortDesc numbers) (7 * i), ?_, by rw [← hse]⟩
  rw [cycGet, List.getD_eq_getElem (sortDesc numbers) 0 hmod]
  exact (sortDesc_perm numbers).mem_iff.mp (List.getElem_mem _)

/-- A run of `solve` never ends in the unbound `best_state` outcome as long
as some input number is within the initial best distance (1000) of the
target — true of every validated game, where numbers are at most 100 and
the target is a three-digit number: the first popped seed leaf either is
the target or becomes the best-so-far. -/
theorem solve_ne_unbound (numbers : List Int) (t : Int) (df : Bool)
    (hne : numbers ≠ []) (hclose : ∀ v ∈ numbers, |v - t| < 1000) :
    solve numbers t df ≠ .unboundBest := by
  rw [solve_eq_solveLoop]
  have hqne : seedStates numbers ≠ [] := by
    intro h0
    have : (seedStates numbers).length = 0 := by rw [h0]; rfl
    rw [seedStates, List.length_map, List.length_range] at this
    exact hne (List.length_eq_zero.mp this)
  cases hpop : popItem df (seedStates numbers) with
  | none => exact absurd ((popItem_eq_none df _).mp hpop) hqne
  | some p =>
    obtain ⟨cur, rest⟩ := p
    have hperm := popItem_perm df _ cur rest hpop
    have hcur : cur ∈ seedStates numbers :=
      hperm.mem_iff.mpr (List.mem_cons_self cur rest)
    obtain ⟨v, hv, hnode⟩ := seedStates_node numbers hne cur hcur
    have heval : cur.node.eval = .ok v := by rw [hnode]; rfl
    by_cases hexact : v = t
    · simp [solveLoop, hpop, heval, hexact]
    · have himp : |v - t| < 1000 := hclose v hv
      simp only [solveLoop, hpop, heval, if_neg hexact, if_pos himp]
      exact solveLoop_some_ne_unbound t df _ _ _ _

/-- **C6.** If the queue empties without any popped state evaluating
exactly to the target (outcome `.exhausted`), the loop returns the
best-so-far tree: a tree, not a failure, that evaluates successfully and
whose distance `|evaluate() - target|` is at most the distance of every
successfully evaluated state enqueued during the search; `solve` is
exactly this loop started from the six seed states with `best_dist = 1000`
and no best state; and whenever some input number is within the initial
best distance of the target (as in every validated game), the run cannot
end in the unbound-`best_state` failure, so a tree is returned. -/
theorem c6_best_effort_fallback :
    (∀ (t : Int) (df : Bool) (fuel : Nat) (q : List QueueItem) (bd : Int)
        (b : Option Node) (n : Node),
      (∀ m, b = some m → ∃ rm, m.eval = .ok rm ∧ |rm - t| ≤ bd) →
      solveLoop t df fuel q bd b = .exhausted n →
      ∃ rn, n.eval = .ok rn ∧ |rn - t| ≤ bd
        ∧ ∀ it ∈ runEnqueued t df fuel q, ∀ r, it.node.eval = .ok r →
            |rn - t| ≤ |r - t|)
    ∧ (∀ (numbers : List Int) (t : Int) (df : Bool),
        solve numbers t df =
          solveLoop t df (measureQ (seedStates numbers) + 1)
            (seedStates numbers) 1000 none)
    ∧ (∀ (numbers : List Int) (t : Int) (df : Bool),
        numbers ≠ [] → (∀ v ∈ numbers, |v - t| < 1000) →
        solve numbers t df ≠ .unboundBest) :=
  ⟨fun t df fuel q bd b n hb heq =>
      solveLoop_exhausted_best t df fuel q bd b n hb heq,
    fun numbers t df => solve_eq_solveLoop numbers t df,
    fun numbers t df hne hclose => solve_ne_unbound numbers t df hne hclose⟩

/-- Witness for `c6_best_effort_fallback`: a one-state queue (leaf `3`,
empty pool, target `5`) that exhausts after two iterations and returns the
leaf as best-so-far. -/
theorem c6_witness :
    solveLoop 5 false 2 [(⟨.num 3, []⟩ : QueueItem)] 1000 none
      = .exhausted (.num 3)
    ∧ ∃ rn, (Node.num 3).eval = .ok rn ∧ |rn - 5| ≤ 1000
        ∧ ∀ it ∈ runEnqueued 5 false 2 [(⟨.num 3, []⟩ : QueueItem)],
            ∀ r, it.node.eval = .ok r → |rn - 5| ≤ |r - 5| :=
  ⟨by decide,
    c6_best_effort_fallback.1 5 false 2 [⟨.num 3, []⟩] 1000 none (.num 3)
      (fun m hm => Option.noConfusion hm) (by decide)⟩

end Countdown
